import Mathlib

/-!
Verification development for the react-autolocalise SDK.

This file gives a shallow embedding, in Lean 4, of the translation
caching/batching engine of the repository:

* `src/services/translation.ts` — the `TranslationService` class
  (`generateHash`, `getCachedTranslation`, `translate`, `translateBatch`,
  `loadExistingTranslations`, `init`, `scheduleBatchTranslation`);
* `src/server/index.ts` — the `ServerTranslationCache` front end
  (`getService`, `batchTranslate`, `executeBatch`);
* `src/utils/textFormatting.tsx` — the structured-text codec
  (`extractTextAndStyles`, `restoreStyledText`).

Modelling conventions:

* JavaScript objects (`Record<string,string>`, the locale-indexed cache)
  and `Map`s are modelled as insertion-ordered association lists with the
  key-update-in-place semantics of JS property assignment (`oset`).
* `async` methods are modelled as pure state transformers.  The outcome of
  a `fetch` is an explicit `ApiOutcome` argument: a 2xx response with a
  parsed JSON body, a non-2xx response (`baseApi` returns `null`), or a
  rejection (the `fetch` promise rejects, or `response.json()` rejects).
  A thrown JS exception is an `Except.error`.
* Every operation that can reach the network also returns the list of
  network calls it performed (for the batch endpoint, the exact payload of
  each call), so "issues zero network calls" is a provable statement.
* Blank-text tests (`text.trim() === ""`) are modelled by `jsBlank`,
  all-whitespace on the character list, avoiding `String.trim`.
-/

namespace AutoLocalise

/-! ### Association-list model of JS objects and Maps -/

/-- Lookup in a JS object / Map modelled as an association list
(first matching key wins; objects built by `oset` never hold duplicate
keys, matching JS). -/
def olookup {α : Type} : List (String × α) → String → Option α
  | [], _ => none
  | (k1, v) :: rest, k => if k1 = k then some v else olookup rest k

/-- JS property assignment `obj[k] = v` / `Map.set`: update the existing
entry in place, otherwise append at the end (insertion order). -/
def oset {α : Type} : List (String × α) → String → α → List (String × α)
  | [], k, v => [(k, v)]
  | (k1, v1) :: rest, k, v =>
      if k1 = k then (k1, v) :: rest else (k1, v1) :: oset rest k v

/-- JS object spread `{...a, ...b}`: entries of `b` written over `a`,
later entries of `b` winning. -/
def spreadMerge {α : Type} (a b : List (String × α)) : List (String × α) :=
  b.foldl (fun acc p => oset acc p.1 p.2) a

/-- Two-level lookup in the locale-partitioned cache. -/
def olookup2 {α : Type} (c : List (String × List (String × α))) (l k : String) :
    Option α :=
  match olookup c l with
  | some m => olookup m k
  | none => none

/-! ### generateHash (src/services/translation.ts, lines 81-90)

`hash = (hash << 5) - hash + charCode; hash = hash & hash` over 32-bit
integer coercions.  `charCodeAt` yields UTF-16 code units; for the
BMP strings used throughout this development it coincides with the
code point (`Char.toNat`). -/

/-- JS `ToInt32` coercion. -/
def toInt32 (n : Int) : Int := (n + 2 ^ 31) % 2 ^ 32 - 2 ^ 31

/-- One loop iteration of `generateHash`. -/
def hashStep (h : Int) (c : Char) : Int :=
  toInt32 (toInt32 (h * 32) - h + c.toNat)

/-- Port of `TranslationService.generateHash`: decimal string of the final
32-bit hash value. -/
def generateHash (text : String) : String :=
  toString (text.data.foldl hashStep 0)

/-! ### TranslationService state and configuration -/

structure TranslationConfig where
  apiKey : String
  sourceLocale : String
  targetLocale : String
  cacheTTL : Option Nat := none
deriving DecidableEq

/-- A JS `Record<string,string>`. -/
abbrev Rec := List (String × String)

/-- The locale-partitioned cache `TranslationMap`. -/
abbrev Cache := List (String × Rec)

/-- One item of a `v1/translate` request payload. -/
structure BatchItem where
  hashkey : String
  text : String
  persist : Bool
deriving DecidableEq

/-- The mutable fields of a `TranslationService` instance.  `storage` and
`batchTimeout` record presence of the storage adapter and of a scheduled
debounce timer; `cacheKey`/`baseUrl` are constants and not modelled. -/
structure ServiceState where
  config : TranslationConfig
  cache : Cache
  pendingTranslations : List (String × Bool)
  batchTimeout : Bool
  storage : Bool
  isInitialized : Bool
  isSSR : Bool
  lastRefreshTime : Option Nat
deriving DecidableEq

/-- Models `text.trim() === ""` (JS trims Unicode whitespace; the
whitespace classes agree on the spaces, tabs and newlines relevant
here). -/
def jsBlank (s : String) : Bool := s.data.all Char.isWhitespace

/-- Port of `TranslationService.getCachedTranslation`:
`this.cache[this.config.targetLocale]?.[hashkey] || null` — note the
`|| null`, which turns an empty-string entry into `null`. -/
def getCachedTranslation (st : ServiceState) (text : String) : Option String :=
  match olookup2 st.cache st.config.targetLocale (generateHash text) with
  | some v => if v = "" then none else some v
  | none => none

/-- Port of `TranslationService.scheduleBatchTranslation` (the part that
runs synchronously: early returns and arming the debounce timer; the
timer callback itself is a later asynchronous event). -/
def scheduleBatchTranslation (st : ServiceState) : ServiceState :=
  if st.isSSR then st
  else if st.storage = false then st
  else { st with batchTimeout := true }

/-- Port of `TranslationService.translate` (synchronous client-side
entry point). -/
def translate (st : ServiceState) (text : String) (persist : Bool) :
    String × ServiceState :=
  if text = "" ∨ st.isInitialized = false then (text, st)
  else if jsBlank text then (text, st)
  else
    match getCachedTranslation st text with
    | some cached => (cached, st)
    | none =>
        (text,
         scheduleBatchTranslation
           { st with pendingTranslations := oset st.pendingTranslations text persist })

/-! ### Network model and translateBatch -/

/-- Outcome of one `fetch` to the API. -/
inductive ApiOutcome where
  | success (body : Rec)
  | httpError
  | reject
deriving DecidableEq

/-- Port of `TranslationService.baseApi`: `null` on a non-2xx response,
a thrown exception when the fetch (or `response.json()`) rejects. -/
def baseApi (net : ApiOutcome) : Except Unit (Option Rec) :=
  match net with
  | .success data => .ok (some data)
  | .httpError => .ok none
  | .reject => .error ()

/-- Result of `translateBatch`: the promise outcome (`error` = rejected),
the service state afterwards, and the payloads of the network calls
performed. -/
structure BatchResult where
  result : Except Unit Rec
  state : ServiceState
  calls : List (List BatchItem)

/-- The text-keyed fallback `{ text: text }` built over all input items. -/
def identityResponse (texts : List BatchItem) : Rec :=
  texts.foldl (fun acc i => oset acc i.text i.text) []

/-- Port of `TranslationService.translateBatch`. -/
def translateBatch (st : ServiceState) (texts : List BatchItem)
    (net : ApiOutcome) : BatchResult :=
  if st.isInitialized = false ∨ texts = [] then ⟨.ok [], st, []⟩
  else
    let validTexts := texts.filter (fun i => !jsBlank i.text)
    if validTexts = [] then ⟨.ok [], st, []⟩
    else
      match baseApi net with
      | .error e => ⟨.error e, st, [validTexts]⟩
      | .ok none => ⟨.ok (identityResponse texts), st, [validTexts]⟩
      | .ok (some data) =>
          let oldLoc := (olookup st.cache st.config.targetLocale).getD []
          let resp := texts.foldl
            (fun acc i =>
              oset acc i.text
                (match olookup data i.hashkey with
                 | some v => if v = "" then i.text else v
                 | none => i.text)) []
          ⟨.ok resp,
           { st with cache := oset st.cache st.config.targetLocale (spreadMerge oldLoc data) },
           [validTexts]⟩

/-! ### loadExistingTranslations and init -/

/-- Result of `loadExistingTranslations`: promise outcome and number of
`v1/translations` refresh calls performed. -/
structure LoadResult where
  result : Except Unit ServiceState
  refreshCalls : Nat

/-- Port of `TranslationService.loadExistingTranslations`: on a non-2xx
response the cache is kept; on success the response is spread-merged into
the active locale and the refresh watermark is set. -/
def loadExistingTranslations (st : ServiceState) (net : ApiOutcome) (now : Nat) :
    LoadResult :=
  match baseApi net with
  | .error e => ⟨.error e, 1⟩
  | .ok none => ⟨.ok st, 1⟩
  | .ok (some resp) =>
      let oldLoc := (olookup st.cache st.config.targetLocale).getD []
      ⟨.ok { st with
              cache := oset st.cache st.config.targetLocale (spreadMerge oldLoc resp),
              lastRefreshTime := some now }, 1⟩

/-- Content found in `localStorage` at initialization: absent, present but
not JSON-parseable, or parsed into `{data, lastRefreshTime}` (the JSON
decoding itself is abstracted). -/
inductive LocalData where
  | unparseable
  | parsed (data : Rec) (lastRefreshTime : Option Nat)
deriving DecidableEq

/-- Environment of one `init()` run. -/
structure InitEnv where
  net : ApiOutcome
  now : Nat
  localData : Option LocalData
  getItemThrows : Bool
  setItemThrows : Bool
deriving DecidableEq

/-- The synchronous hydration step of client-side `init`:
`this.cache[this.config.targetLocale] = data` (a replace of the locale
sub-map) plus the watermark; a parse failure is swallowed by the inner
`try/catch`. -/
def hydrateFromStorage (st : ServiceState) (ld : Option LocalData) : ServiceState :=
  match ld with
  | none => st
  | some .unparseable => st
  | some (.parsed data lrt) =>
      { st with cache := oset st.cache st.config.targetLocale data,
                lastRefreshTime := lrt }

/-- Port of `TranslationService.init`.  The outer `try/catch` swallows
every failure and still sets `isInitialized`, so the model is total and
returns the final state plus the number of refresh network calls. -/
def init (st : ServiceState) (env : InitEnv) : ServiceState × Nat :=
  if st.isInitialized then (st, 0)
  else if st.isSSR then
    match loadExistingTranslations st env.net env.now with
    | ⟨.error _, n⟩ => ({ st with isInitialized := true }, n)
    | ⟨.ok st1, n⟩ => ({ st1 with isInitialized := true }, n)
  else
    let st1 := { st with storage := true }
    if env.getItemThrows then ({ st1 with isInitialized := true }, 0)
    else
      let st2 := { hydrateFromStorage st1 env.localData with isInitialized := true }
      match loadExistingTranslations st2 env.net env.now with
      | ⟨.error _, n⟩ => (st2, n)
      | ⟨.ok st3, n⟩ => (st3, n)


/-! ### Server front end (src/server/index.ts, `ServerTranslationCache`)

`batchTranslate` is an `async` method whose only suspension points are the
`await this.getService(config)` and the 1 ms coalescing delay
(`await new Promise(resolve => setTimeout(resolve, 1))`).  Under the
cooperative JS event loop, everything before the delay runs atomically, so
the method splits into two phases:

* `batchTranslateArrive` — the code up to (and including) joining or
  creating the pending-batch descriptor;
* `batchTranslateFire` — the creator's continuation after the delay:
  read the accumulated text set, run `executeBatch` once, delete the
  descriptor.

Requests arriving "within the coalescing window" are exactly the
`batchTranslateArrive` steps executed before the `batchTranslateFire`
step.  Only one composite key `(apiKey, sourceLocale, targetLocale)` is
modelled, since the descriptor map is keyed per composite key. -/

/-- Registry state for one composite key: the shared `TranslationService`
(if created) and the pending-batch descriptor's text set (if a batch is
pending). -/
structure ServerState where
  service : Option ServiceState
  pendingTexts : Option (List String)
deriving DecidableEq

/-- What one `batchTranslate` call has produced by the end of its arrive
phase: either a fully resolved result (pass-through, or all texts cached),
or cached results plus the texts it handed to the pending batch. -/
inductive ArriveOut where
  | immediate (res : Rec)
  | waiting (res : Rec) (toTranslate : List String)
deriving DecidableEq

/-- JS `Set.add` iterated: append each element not already present
(insertion order, deduplicated). -/
def saddAll (pend : List String) (xs : List String) : List String :=
  xs.foldl (fun acc t => if t ∈ acc then acc else acc ++ [t]) pend

/-- `Object.fromEntries(texts.map(str => [str, str]))`. -/
def identityStrRec (texts : List String) : Rec :=
  texts.foldl (fun acc t => oset acc t t) []

/-- A `new TranslationService(config)` in the server environment
(`typeof window === "undefined"`, so `isSSR = true`). -/
def freshService (cfg : TranslationConfig) : ServiceState :=
  ⟨cfg, [], [], false, false, false, true, none⟩

/-- Port of `ServerTranslationCache.getService`: reuse the registry entry,
otherwise construct and `init` a fresh service (the `initPromises`
deduplication is collapsed, since one sequential arrival is modelled at a
time). -/
def getService (cfg : TranslationConfig) (s : ServerState) (env : InitEnv) :
    ServiceState × ServerState :=
  match s.service with
  | some svc => (svc, s)
  | none =>
      let p := init (freshService cfg) env
      (p.1, { s with service := some p.1 })

/-- Arrive phase of `ServerTranslationCache.batchTranslate` (everything
before the coalescing delay): pass-through check, cache lookups, then
join-or-create the pending-batch descriptor. -/
def batchTranslateArrive (cfg : TranslationConfig) (texts : List String)
    (s : ServerState) (env : InitEnv) : ArriveOut × ServerState :=
  if cfg.sourceLocale = cfg.targetLocale then
    (.immediate (identityStrRec texts), s)
  else
    let g := getService cfg s env
    let svc := g.1
    let s1 := g.2
    let results := texts.foldl
      (fun acc t =>
        match getCachedTranslation svc t with
        | some tr => oset acc t tr
        | none => acc) []
    let toTranslate := texts.filter (fun t => (getCachedTranslation svc t).isNone)
    if toTranslate = [] then (.immediate results, s1)
    else
      match s1.pendingTexts with
      | some pend =>
          (.waiting results toTranslate,
           { s1 with pendingTexts := some (saddAll pend toTranslate) })
      | none =>
          (.waiting results toTranslate,
           { s1 with pendingTexts := some (saddAll [] toTranslate) })

/-- Port of `ServerTranslationCache.executeBatch`: build the request items
and call `translateBatch`, falling back to the identity map if it
rejects. -/
def executeBatch (texts : List String) (svc : ServiceState) (net : ApiOutcome) :
    Rec × ServiceState × List (List BatchItem) :=
  match translateBatch svc (texts.map (fun t => BatchItem.mk (generateHash t) t true)) net with
  | ⟨.error _, svc1, calls⟩ => (identityStrRec texts, svc1, calls)
  | ⟨.ok r, svc1, calls⟩ => (r, svc1, calls)

/-- Fire phase of `ServerTranslationCache.batchTranslate`: after the 1 ms
delay the creator reads the full accumulated text set, executes the batch
once, and deletes the descriptor. -/
def batchTranslateFire (s : ServerState) (net : ApiOutcome) :
    Rec × ServerState × List (List BatchItem) :=
  match s.pendingTexts, s.service with
  | some finalTexts, some svc =>
      let e := executeBatch finalTexts svc net
      (e.1, ⟨some e.2.1, none⟩, e.2.2)
  | _, _ => ([], s, [])

/-- A waiter's extraction `results[text] = batchResults[text] || text`
after the shared batch promise resolves. -/
def resolveWaiter (results : Rec) (toTranslate : List String)
    (batchResults : Rec) : Rec :=
  toTranslate.foldl
    (fun acc t =>
      oset acc t
        (match olookup batchResults t with
         | some v => if v = "" then t else v
         | none => t)) results

/-- A sequence of `batchTranslate` arrivals for the same composite key,
all within one coalescing window (i.e. before the fire step). -/
def arriveAll (cfg : TranslationConfig) (arrivals : List (List String))
    (s : ServerState) (env : InitEnv) : List ArriveOut × ServerState :=
  match arrivals with
  | [] => ([], s)
  | ts :: rest =>
      let a := batchTranslateArrive cfg ts s env
      let r := arriveAll cfg rest a.2 env
      (a.1 :: r.1, r.2)

/-! ### Structured-text codec (src/utils/textFormatting.tsx)

React nodes are modelled by `RNode`.  A React element's `props.children`
is either absent (`elemNone`), a single child (`elemOne` — which covers
the `typeof children === "string"` case when the child is `str`), or an
array (`elemMany`).  `nul` is `null`/`undefined`.  Element identity
(type and props) is abstracted into a numeric tag. -/

inductive RNode : Type where
  | str (s : String)
  | nul
  | elemNone (tag : Nat)
  | elemOne (tag : Nat) (child : RNode)
  | elemMany (tag : Nat) (children : List RNode)

/-- Accumulator of `extractTextAndStyles`: the template built so far and
the `styles` array of `{node, text}` pairs. -/
structure ExtractAcc where
  text : String
  styles : List (RNode × String)

/-- Decimal digit characters of a natural number (the JS number-to-string
conversion used by the template literal in `extractTextAndStyles`),
written with explicit fuel so that it evaluates by `rfl`/`decide`. -/
def natCharsCore : Nat → Nat → List Char → List Char
  | 0, _, acc => acc
  | fuel + 1, n, acc =>
      if n < 10 then Nat.digitChar n :: acc
      else natCharsCore fuel (n / 10) (Nat.digitChar (n % 10) :: acc)

/-- Decimal representation of `n` as characters. -/
def natChars (n : Nat) : List Char := natCharsCore (n + 1) n []

/-- The marker written for styled span number `i`:
`` `<${i}>${childText}</${i}>` ``. -/
def markerText (i : Nat) (s : String) : String :=
  "<" ++ String.mk (natChars i) ++ ">" ++ s ++ "</" ++ String.mk (natChars i) ++ ">"

mutual

/-- Port of the inner `processNode` of `extractTextAndStyles`: plain
strings are appended to the template; an element whose single child is a
string becomes a marker plus a `styles` entry; an element with an array of
children recurses over them in order; a single non-string child recurses
if truthy; `null`/childless elements contribute nothing. -/
def processNode (acc : ExtractAcc) : RNode → ExtractAcc
  | .str s => { acc with text := acc.text ++ s }
  | .nul => acc
  | .elemNone _ => acc
  | .elemOne t (.str s) =>
      { text := acc.text ++ markerText acc.styles.length s,
        styles := acc.styles ++ [(.elemOne t (.str s), s)] }
  | .elemOne _ .nul => acc
  | .elemOne _ c => processNode acc c
  | .elemMany _ ns => processList acc ns

/-- `children.forEach(processNode)`. -/
def processList (acc : ExtractAcc) : List RNode → ExtractAcc
  | [] => acc
  | n :: ns => processList (processNode acc n) ns

end

/-- Port of `extractTextAndStyles`, for a root-level array of nodes. -/
def extractTextAndStyles (nodes : List RNode) : ExtractAcc :=
  processList ⟨"", []⟩ nodes

/-- One attempt to match the split regex `<\d+>[^<]*<\/\d+>` at the start
of `s`.  The regex is deterministic here: `\d+` is a maximal digit run
(the next char must be `>`), and `[^<]*` is a maximal run of non-`<`
characters (backtracking cannot help since the following `<` cannot be
consumed by `[^<]`).  Returns the matched characters and the rest. -/
def tryMatchAt (s : List Char) : Option (List Char × List Char) :=
  match s with
  | [] => none
  | c1 :: s1 =>
      if c1 = '<' then
        let d := s1.takeWhile Char.isDigit
        if d = [] then none
        else
          match s1.dropWhile Char.isDigit with
          | '>' :: s3 =>
              let c := s3.takeWhile (fun ch => ch ≠ '<')
              match s3.dropWhile (fun ch => ch ≠ '<') with
              | '<' :: '/' :: s5 =>
                  let e := s5.takeWhile Char.isDigit
                  if e = [] then none
                  else
                    match s5.dropWhile Char.isDigit with
                    | '>' :: s7 =>
                        some (('<' :: d) ++ ('>' :: c) ++ ('<' :: '/' :: e) ++ ['>'], s7)
                    | _ => none
              | _ => none
          | _ => none
      else none

/-- The scan of `String.prototype.split` with a capturing group: walk the
string, and at each position either emit the leftmost regex match as a
separator part or consume one plain character.  `acc` is the reversed
current plain segment; `fuel` bounds the recursion (one unit per step,
each step consumes at least one character). -/
def splitAux : Nat → List Char → List Char → List (List Char)
  | 0, acc, _ => [acc.reverse]
  | _, acc, [] => [acc.reverse]
  | fuel + 1, acc, ch :: rest =>
      match tryMatchAt (ch :: rest) with
      | some (m, r) => acc.reverse :: m :: splitAux fuel [] r
      | none => splitAux fuel (ch :: acc) rest

/-- Port of `translatedText.split(/(<\d+>[^<]*<\/\d+>)/g)`: alternating
plain segments and matched markers, empty segments included. -/
def splitOnMarkers (s : String) : List String :=
  (splitAux (s.data.length + 1) [] s.data).map String.mk

/-- Match of `/<(\d+)>([^<]*)<\/\1>/` at the start of `s`: like
`tryMatchAt` but the closing digit run must equal the opening one (the
backreference).  Returns the two capture groups (digits, content). -/
def matchCapture (s : List Char) : Option (List Char × List Char) :=
  match s with
  | [] => none
  | c1 :: s1 =>
      if c1 = '<' then
        let d := s1.takeWhile Char.isDigit
        if d = [] then none
        else
          match s1.dropWhile Char.isDigit with
          | '>' :: s3 =>
              let c := s3.takeWhile (fun ch => ch ≠ '<')
              match s3.dropWhile (fun ch => ch ≠ '<') with
              | '<' :: '/' :: s5 =>
                  let e := s5.takeWhile Char.isDigit
                  if e = d then
                    match s5.dropWhile Char.isDigit with
                    | '>' :: _ => some (d, c)
                    | _ => none
                  else none
              | _ => none
          | _ => none
      else none

/-- Unanchored search of `part.match(/<(\d+)>([^<]*)<\/\1>/)`: first
position (left to right) where the backreference regex matches. -/
def matchMarker : List Char → Option (List Char × List Char)
  | [] => none
  | ch :: rest =>
      match matchCapture (ch :: rest) with
      | some r => some r
      | none => matchMarker rest

/-- `parseInt` on the digit capture group. -/
def digitsVal (cs : List Char) : Nat :=
  cs.foldl (fun a c => 10 * a + (c.toNat - 48)) 0

/-- An entry of the array returned by `restoreStyledText`: a plain string
or a (cloned) React element. -/
inductive OutPart where
  | otext (s : String)
  | onode (n : RNode)

/-- `React.cloneElement(style.node, {...}, content)`: same element, its
children replaced by the single string `content`. -/
def cloneElement (node : RNode) (content : String) : RNode :=
  match node with
  | .elemNone t => .elemOne t (.str content)
  | .elemOne t _ => .elemOne t (.str content)
  | .elemMany t _ => .elemOne t (.str content)
  | other => other

/-- The mapper applied to each split part by `restoreStyledText`: a part
matching the marker regex is replaced by the cloned styled node if
`styles[parseInt(i)]` exists, and is otherwise (or if it is a plain
segment) kept verbatim as text. -/
def restorePart (styles : List (RNode × String)) (part : String) : OutPart :=
  match matchMarker part.data with
  | some (d, c) =>
      match styles[digitsVal d]? with
      | some style => .onode (cloneElement style.1 (String.mk c))
      | none => .otext part
  | none => .otext part

/-- Port of `restoreStyledText`. -/
def restoreStyledText (translatedText : String)
    (styles : List (RNode × String)) : List OutPart :=
  (splitOnMarkers translatedText).map (restorePart styles)

/-! ### Statement-side definitions for the codec claims -/

/-- Node class of the round-trip claim: a plain text fragment or a styled
element whose single child is a plain string, neither containing the
character `<` (the restriction the counterexample forces). -/
def goodNode : RNode → Bool
  | .str s => s.data.all (fun c => c ≠ '<')
  | .elemOne _ (.str s) => s.data.all (fun c => c ≠ '<')
  | _ => false

/-- A root-level forest of `goodNode`s. -/
def goodTree (nodes : List RNode) : Bool := nodes.all goodNode

/-- Visible text of a source forest: plain fragments and styled-span
child strings, in document order. -/
def srcVisible : List RNode → String
  | [] => ""
  | .str s :: rest => s ++ srcVisible rest
  | .elemOne _ (.str s) :: rest => s ++ srcVisible rest
  | _ :: rest => srcVisible rest

/-- The styled spans of a source forest, as `{node, text}` pairs in
document order. -/
def srcStyled : List RNode → List (RNode × String)
  | [] => []
  | .elemOne t (.str s) :: rest => (.elemOne t (.str s), s) :: srcStyled rest
  | _ :: rest => srcStyled rest

/-- Visible text of one reconstructed part. -/
def outText : OutPart → String
  | .otext s => s
  | .onode (.elemOne _ (.str s)) => s
  | .onode _ => ""

/-- Concatenated visible text of a reconstructed sequence. -/
def outJoin : List OutPart → String
  | [] => ""
  | p :: ps => outText p ++ outJoin ps

/-- The element nodes of a reconstructed sequence, in order. -/
def outStyled : List OutPart → List RNode
  | [] => []
  | .onode n :: ps => n :: outStyled ps
  | _ :: ps => outStyled ps

/-! ### Proof-side canonical forms for the codec -/

/-- Characters of the marker for span index `k` with content `s`. -/
def cmarker (k : Nat) (s : List Char) : List Char :=
  ('<' :: natChars k) ++ ('>' :: s) ++ ('<' :: '/' :: natChars k) ++ ['>']

/-- Characters of the template that `extractTextAndStyles` produces for a
good forest, with marker indices starting at `k`. -/
def ctempl (k : Nat) : List RNode → List Char
  | [] => []
  | .str s :: rest => s.data ++ ctempl k rest
  | .elemOne _ (.str s) :: rest => cmarker k s.data ++ ctempl (k + 1) rest
  | _ :: rest => ctempl k rest

/-- The parts that the split scan produces on such a template: merged
plain runs alternating with markers, `pre` being the plain run carried
in. -/
def partsOf (k : Nat) (pre : List Char) : List RNode → List (List Char)
  | [] => [pre]
  | .str s :: rest => partsOf k (pre ++ s.data) rest
  | .elemOne _ (.str s) :: rest => pre :: cmarker k s.data :: partsOf (k + 1) [] rest
  | _ :: rest => partsOf k pre rest

/-- The reconstructed sequence expected for a good forest. -/
def expectedOut (pre : List Char) : List RNode → List OutPart
  | [] => [.otext (String.mk pre)]
  | .str s :: rest => expectedOut (pre ++ s.data) rest
  | .elemOne t (.str s) :: rest =>
      .otext (String.mk pre) :: .onode (.elemOne t (.str s)) :: expectedOut [] rest
  | _ :: rest => expectedOut pre rest

/-! ### Concrete instances used by witnesses and counterexamples -/

def cfgEs : TranslationConfig := ⟨"test-key", "en", "es", none⟩

def cfgEn : TranslationConfig := ⟨"test-key", "en", "en", none⟩

def cfgFr : TranslationConfig := ⟨"test-key", "en", "fr", none⟩

/-- An initialized client-side service targeting `es`. -/
def stEs : ServiceState := ⟨cfgEs, [], [], false, true, true, false, none⟩

/-- An initialized service whose config is the pass-through `en → en`. -/
def stEn : ServiceState := ⟨cfgEn, [], [], false, true, true, false, none⟩

/-- A freshly constructed, uninitialized client-side service. -/
def stFresh : ServiceState := ⟨cfgEs, [], [], false, false, false, false, none⟩

/-- An initialized service with two cached entries for `es`. -/
def stMergeEx : ServiceState :=
  ⟨cfgEs, [("es", [("h1", "old"), ("h2", "keep")])], [], false, true, true, false, none⟩

/-- A service whose cache holds an empty-string translation for `Hello`. -/
def stEmptyEntry : ServiceState :=
  ⟨cfgEs, [("es", [(generateHash ("Hello"), "")])], [], false, true, true, false, none⟩

def itemHello : BatchItem := ⟨generateHash ("Hello"), "Hello", true⟩

def envReject : InitEnv := ⟨.reject, 5, some (.parsed [("hk", "hola")] none), false, false⟩

def envOk : InitEnv := ⟨.success [], 5, none, false, false⟩

/-- The shared server-side service for `en → fr`, already initialized. -/
def svcFr : ServiceState := { freshService cfgFr with isInitialized := true }

/-- Server registry state with `svcFr` installed and no pending batch. -/
def srvFr : ServerState := ⟨some svcFr, none⟩

def treeRound : List RNode := [.str ("Hello, "), .elemOne 7 (.str "World"), .str ("!")]

def treeBad : List RNode := [.elemOne 0 (.str "a<b")]

def styleSpan : RNode := .elemOne 0 (.str "text")
theorem olookup_oset {α : Type} (r : List (String × α)) (k k1 : String) (v : α) :
    olookup (oset r k v) k1 = if k = k1 then some v else olookup r k1 := by
  induction r with
  | nil => by_cases h : k = k1 <;> simp [oset, olookup, h]
  | cons p rest ih =>
    obtain ⟨k2, v2⟩ := p
    by_cases h2 : k2 = k
    · subst h2
      by_cases h : k2 = k1
      · subst h
        simp [oset, olookup]
      · simp [oset, olookup, h]
    · by_cases h : k = k1
      · subst h
        simp [oset, olookup, h2, ih]
      · by_cases h3 : k2 = k1
        · subst h3
          simp [oset, olookup, h2, h]
        · simp [oset, olookup, h2, h3, ih, h]

theorem olookup_append {α : Type} (xs ys : List (String × α)) (k : String) :
    olookup (xs ++ ys) k =
      match olookup xs k with
      | some v => some v
      | none => olookup ys k := by
  induction xs with
  | nil => simp [olookup]
  | cons p rest ih =>
    by_cases h : p.1 = k <;> simp [olookup, h, ih]

theorem olookup_eq_none_of_not_mem {α : Type} (r : List (String × α)) (k : String)
    (h : k ∉ r.map Prod.fst) : olookup r k = none := by
  induction r with
  | nil => rfl
  | cons p rest ih =>
    have h1 : ¬ p.1 = k := by
      intro he
      apply h
      simp only [List.map_cons, List.mem_cons]
      exact Or.inl he.symm
    have h2 : k ∉ rest.map Prod.fst := by
      intro hm
      apply h
      simp only [List.map_cons, List.mem_cons]
      exact Or.inr hm
    simp [olookup, h1, ih h2]

/-- Lookup after a JS spread: an entry of `b` (whose keys are distinct, as
for any object produced by `JSON.parse`) wins over `a`. -/
theorem olookup_spreadMerge {α : Type} (a b : List (String × α)) (k : String)
    (hb : (b.map Prod.fst).Nodup) :
    olookup (spreadMerge a b) k =
      match olookup b k with
      | some v => some v
      | none => olookup a k := by
  induction b generalizing a with
  | nil => simp [spreadMerge, olookup]
  | cons p rest ih =>
    simp only [List.map_cons, List.nodup_cons] at hb
    have step : spreadMerge a (p :: rest) = spreadMerge (oset a p.1 p.2) rest := rfl
    rw [step, ih (oset a p.1 p.2) hb.2]
    by_cases h : p.1 = k
    · subst h
      have hnone : olookup rest p.1 = none :=
        olookup_eq_none_of_not_mem rest p.1 hb.1
      simp [hnone, olookup, olookup_oset]
    · have hol : olookup (p :: rest) k = olookup rest k := by
        simp [olookup, h]
      rw [hol, olookup_oset]
      simp [h]


theorem identityResponseAux (texts : List BatchItem) (acc : Rec) (t : String) :
    olookup (texts.foldl (fun a i => oset a i.text i.text) acc) t
      = if ∃ i ∈ texts, i.text = t then some t else olookup acc t := by
  induction texts generalizing acc with
  | nil => simp
  | cons i rest ih =>
    rw [List.foldl_cons, ih]
    by_cases hex : ∃ j ∈ rest, j.text = t
    · rw [if_pos hex,
        if_pos ⟨hex.choose, List.mem_cons_of_mem i hex.choose_spec.1, hex.choose_spec.2⟩]
    · rw [if_neg hex, olookup_oset]
      by_cases hit : i.text = t
      · rw [if_pos hit, if_pos ⟨i, List.mem_cons_self i rest, hit⟩]
        exact congrArg some hit
      · rw [if_neg hit, if_neg ?_]
        rintro ⟨j, hj, hjt⟩
        rcases List.mem_cons.mp hj with hj1 | hj2
        · exact hit (hj1 ▸ hjt)
        · exact hex ⟨j, hj2, hjt⟩

theorem identityResponse_lookup (texts : List BatchItem) (t : String)
    (h : ∃ i ∈ texts, i.text = t) :
    olookup (identityResponse texts) t = some t := by
  have := identityResponseAux texts [] t
  rw [identityResponse, this, if_pos h]

theorem identityStrRecAux (texts : List String) (acc : Rec) (t : String) :
    olookup (texts.foldl (fun a x => oset a x x) acc) t
      = if t ∈ texts then some t else olookup acc t := by
  induction texts generalizing acc with
  | nil => simp
  | cons x rest ih =>
    rw [List.foldl_cons, ih]
    by_cases hex : t ∈ rest
    · rw [if_pos hex, if_pos (List.mem_cons_of_mem x hex)]
    · rw [if_neg hex, olookup_oset]
      by_cases hxt : x = t
      · rw [if_pos hxt, if_pos (hxt ▸ List.mem_cons_self x rest)]
        exact congrArg some hxt
      · rw [if_neg hxt, if_neg ?_]
        intro hc
        rcases List.mem_cons.mp hc with h1 | h2
        · exact hxt h1.symm
        · exact hex h2

theorem identityStrRec_lookup (texts : List String) (t : String) (h : t ∈ texts) :
    olookup (identityStrRec texts) t = some t := by
  have := identityStrRecAux texts [] t
  rw [identityStrRec, this, if_pos h]

theorem scheduleBatch_pendingEq (s : ServiceState) :
    (scheduleBatchTranslation s).pendingTranslations = s.pendingTranslations := by
  cases h1 : s.isSSR <;> cases h2 : s.storage <;>
    simp [scheduleBatchTranslation, h1, h2]

theorem scheduleBatch_arms (s : ServiceState) (h1 : s.isSSR = false)
    (h2 : s.storage = true) : (scheduleBatchTranslation s).batchTimeout = true := by
  simp [scheduleBatchTranslation, h1, h2]

theorem translate_miss_shape (st : ServiceState) (text : String) (persist : Bool)
    (hinit : st.isInitialized = true) (hnb : jsBlank text = false)
    (hmiss : getCachedTranslation st text = none) :
    translate st text persist
      = (text, scheduleBatchTranslation
          { st with pendingTranslations := oset st.pendingTranslations text persist }) := by
  have htext : ¬ text = "" := by
    intro h
    subst h
    exact absurd hnb (by decide)
  unfold translate
  rw [if_neg (by simp [htext, hinit]), if_neg (by simp [hnb]), hmiss]

/-- C9: if the engine is not initialized, `translate` returns the text
unchanged and has no side effect at all (the pending map is untouched and
no batch is scheduled): the state is returned verbatim. -/
theorem translateUninitializedNoop (st : ServiceState) (text : String) (persist : Bool)
    (h : st.isInitialized = false) :
    translate st text persist = (text, st) := by
  unfold translate
  rw [if_pos (Or.inr h)]

theorem translateUninitializedNoopWitness :
    stFresh.isInitialized = false ∧ translate stFresh ("Hi") true = ("Hi", stFresh) :=
  ⟨rfl, translateUninitializedNoop stFresh ("Hi") true rfl⟩

/-- C10: an empty-string translation stored in the cache is
indistinguishable from a cache miss: `getCachedTranslation` returns
`null` for it (the `|| null` coercion on the falsy empty string). -/
theorem emptyCacheEntryIsMiss (st : ServiceState) (text : String) (m : Rec)
    (hl : olookup st.cache st.config.targetLocale = some m)
    (he : olookup m (generateHash text) = some "") :
    getCachedTranslation st text = none := by
  unfold getCachedTranslation olookup2
  rw [hl]
  simp [he]

theorem emptyCacheEntryIsMissWitness :
    olookup stEmptyEntry.cache stEmptyEntry.config.targetLocale
        = some [(generateHash ("Hello"), "")] ∧
    olookup [(generateHash ("Hello"), "")] (generateHash ("Hello")) = some "" ∧
    getCachedTranslation stEmptyEntry ("Hello") = none :=
  ⟨rfl, by simp [olookup],
   emptyCacheEntryIsMiss stEmptyEntry ("Hello") [(generateHash ("Hello"), "")] rfl
     (by simp [olookup])⟩

/-- C6: on an initialized engine, `translate` on non-blank uncached text
returns the original text, stores `text ↦ persist` in the pending map
(overwriting any earlier flag for the same text — last write wins, by
`Map.set` semantics), and leaves every other pending entry unchanged.
The function is total, so it never throws. -/
theorem translateEnqueuesPending (st : ServiceState) (text : String) (persist : Bool)
    (hinit : st.isInitialized = true) (hnb : jsBlank text = false)
    (hmiss : getCachedTranslation st text = none) :
    (translate st text persist).1 = text ∧
    olookup (translate st text persist).2.pendingTranslations text = some persist ∧
    ∀ t, t ≠ text →
      olookup (translate st text persist).2.pendingTranslations t
        = olookup st.pendingTranslations t := by
  have htext : ¬ text = "" := by
    intro h
    subst h
    exact absurd hnb (by decide)
  have hc : ¬ (text = "" ∨ st.isInitialized = false) := by
    simp [htext, hinit]
  have hstep : translate st text persist
      = (text, scheduleBatchTranslation
          { st with pendingTranslations := oset st.pendingTranslations text persist }) := by
    unfold translate
    rw [if_neg hc, if_neg (by simp [hnb]), hmiss]
  have hpend : (translate st text persist).2.pendingTranslations
      = oset st.pendingTranslations text persist := by
    rw [hstep]
    exact scheduleBatch_pendingEq _
  refine ⟨by rw [hstep], ?_, ?_⟩
  · rw [hpend, olookup_oset, if_pos rfl]
  · intro t ht
    rw [hpend, olookup_oset, if_neg (fun h => ht h.symm)]

theorem translateEnqueuesPendingWitness :
    stEs.isInitialized = true ∧ jsBlank ("Hi") = false ∧
    getCachedTranslation stEs ("Hi") = none ∧
    (translate stEs ("Hi") false).1 = "Hi" ∧
    olookup (translate stEs ("Hi") false).2.pendingTranslations ("Hi") = some false := by
  have h := translateEnqueuesPending stEs ("Hi") false rfl (by decide) rfl
  exact ⟨rfl, by decide, rfl, h.1, h.2.1⟩

/-- C2 counterexample: when the fetch promise rejects, `translateBatch`
does not resolve with the identity map — the rejection propagates to the
caller (only a non-2xx response is handled fail-open, via `baseApi`
returning `null`). -/
theorem translateBatchRejectCounterexample :
    (translateBatch stEs [itemHello] ApiOutcome.reject).result = Except.error () := rfl

/-- C2 (amended): if the network call fails with a non-2xx response,
`translateBatch` resolves without throwing, leaves the cache untouched,
and maps every input text to itself; a rejected fetch or unparseable
body instead propagates as a rejection (see the counterexample). -/
theorem translateBatchHttpErrorFailOpen (st : ServiceState) (texts : List BatchItem)
    (hinit : st.isInitialized = true)
    (hvalid : texts.filter (fun i => !jsBlank i.text) ≠ []) :
    (translateBatch st texts ApiOutcome.httpError).result = .ok (identityResponse texts) ∧
    (translateBatch st texts ApiOutcome.httpError).state = st ∧
    ∀ i ∈ texts, olookup (identityResponse texts) i.text = some i.text := by
  have htex : ¬ texts = [] := by
    intro h
    subst h
    simp at hvalid
  have hc : ¬ (st.isInitialized = false ∨ texts = []) := by
    simp [hinit, htex]
  have hstep : translateBatch st texts ApiOutcome.httpError
      = ⟨.ok (identityResponse texts), st, [texts.filter (fun i => !jsBlank i.text)]⟩ := by
    simp only [translateBatch]
    rw [if_neg hc, if_neg hvalid]
    rfl
  refine ⟨by rw [hstep], by rw [hstep], ?_⟩
  intro i hi
  exact identityResponse_lookup texts i.text ⟨i, hi, rfl⟩

theorem translateBatchHttpErrorFailOpenWitness :
    stEs.isInitialized = true ∧
    [itemHello].filter (fun i => !jsBlank i.text) ≠ [] ∧
    (translateBatch stEs [itemHello] ApiOutcome.httpError).result
        = .ok (identityResponse [itemHello]) ∧
    olookup (identityResponse [itemHello]) ("Hello") = some "Hello" := by
  have h := translateBatchHttpErrorFailOpen stEs [itemHello] rfl (by decide)
  exact ⟨rfl, by decide, h.1, h.2.2 itemHello (List.mem_singleton.mpr rfl)⟩


theorem olookup2_some {α : Type} (c : List (String × List (String × α))) (l k : String)
    (m : List (String × α)) (h : olookup c l = some m) : olookup2 c l k = olookup m k := by
  unfold olookup2
  rw [h]

theorem olookup2_none {α : Type} (c : List (String × List (String × α))) (l k : String)
    (h : olookup c l = none) : olookup2 c l k = none := by
  unfold olookup2
  rw [h]

theorem mergedCacheLookup (cache : Cache) (target : String) (data : Rec) (l k v : String)
    (hnd : (data.map Prod.fst).Nodup) (hv : olookup2 cache l k = some v) :
    ∃ w,
      olookup2 (oset cache target
          (spreadMerge ((olookup cache target).getD []) data)) l k = some w ∧
      (l ≠ target → w = v) ∧
      (olookup data k = none → w = v) ∧
      (l = target → ∀ u, olookup data k = some u → w = u) := by
  by_cases hl : target = l
  · subst hl
    obtain ⟨m, hm⟩ : ∃ m, olookup cache target = some m := by
      cases hmm : olookup cache target with
      | none =>
        rw [olookup2_none cache target k hmm] at hv
        exact absurd hv (by simp)
      | some m => exact ⟨m, rfl⟩
    rw [olookup2_some cache target k m hm] at hv
    refine ⟨(olookup data k).getD v, ?_, fun h => absurd rfl h, ?_, ?_⟩
    · have hM : olookup (oset cache target
          (spreadMerge ((olookup cache target).getD []) data)) target
          = some (spreadMerge ((olookup cache target).getD []) data) := by
        rw [olookup_oset, if_pos rfl]
      rw [olookup2_some _ target k _ hM, hm, Option.getD_some,
        olookup_spreadMerge m data k hnd]
      cases hd : olookup data k with
      | some u => simp
      | none => simp [hv]
    · intro h
      simp [h]
    · intro _ u hu
      simp [hu]
  · have h2 : olookup (oset cache target
        (spreadMerge ((olookup cache target).getD []) data)) l = olookup cache l := by
      rw [olookup_oset, if_neg hl]
    refine ⟨v, ?_, fun _ => rfl, fun _ => rfl, fun he => absurd he.symm hl⟩
    unfold olookup2 at hv ⊢
    rw [h2]
    exact hv

/-- C5: both cache merge steps — the one `translateBatch` performs on a
successful response and the one the initial/incremental refresh
(`loadExistingTranslations`) performs — are additive: every `(locale,
hashKey)` entry present before the merge is still present afterwards,
with its prior value unless the response contains the same key (in which
case it holds the response's value).  Response objects come from
`JSON.parse`, so their keys are assumed distinct (`Nodup`). -/
theorem cacheMergeAdditive :
    (∀ (st : ServiceState) (texts : List BatchItem) (data : Rec) (l k v : String),
      st.isInitialized = true →
      texts.filter (fun i => !jsBlank i.text) ≠ [] →
      (data.map Prod.fst).Nodup →
      olookup2 st.cache l k = some v →
      ∃ w,
        olookup2 (translateBatch st texts (ApiOutcome.success data)).state.cache l k
          = some w ∧
        (l ≠ st.config.targetLocale → w = v) ∧
        (olookup data k = none → w = v) ∧
        (l = st.config.targetLocale → ∀ u, olookup data k = some u → w = u)) ∧
    (∀ (st : ServiceState) (resp : Rec) (now : Nat) (l k v : String),
      (resp.map Prod.fst).Nodup →
      olookup2 st.cache l k = some v →
      ∃ st1, (loadExistingTranslations st (ApiOutcome.success resp) now).result = .ok st1 ∧
        ∃ w, olookup2 st1.cache l k = some w ∧
          (l ≠ st.config.targetLocale → w = v) ∧
          (olookup resp k = none → w = v) ∧
          (l = st.config.targetLocale → ∀ u, olookup resp k = some u → w = u)) := by
  constructor
  · intro st texts data l k v hinit hvalid hnd hv
    have htex : ¬ texts = [] := by
      intro h
      subst h
      simp at hvalid
    have hc : ¬ (st.isInitialized = false ∨ texts = []) := by
      simp [hinit, htex]
    have hstep : (translateBatch st texts (ApiOutcome.success data)).state.cache
        = oset st.cache st.config.targetLocale
            (spreadMerge ((olookup st.cache st.config.targetLocale).getD []) data) := by
      simp only [translateBatch]
      rw [if_neg hc, if_neg hvalid]
      rfl
    rw [hstep]
    exact mergedCacheLookup st.cache st.config.targetLocale data l k v hnd hv
  · intro st resp now l k v hnd hv
    refine ⟨_, rfl, ?_⟩
    exact mergedCacheLookup st.cache st.config.targetLocale resp l k v hnd hv

theorem cacheMergeAdditiveWitness :
    stMergeEx.isInitialized = true ∧
    [itemHello].filter (fun i => !jsBlank i.text) ≠ [] ∧
    (([("h1", "new")] : Rec).map Prod.fst).Nodup ∧
    olookup2 stMergeEx.cache ("es") ("h1") = some "old" ∧
    (∃ w,
      olookup2 (translateBatch stMergeEx [itemHello]
          (ApiOutcome.success [("h1", "new")])).state.cache ("es") ("h1") = some w ∧
      (("es" : String) ≠ stMergeEx.config.targetLocale → w = "old") ∧
      (olookup [("h1", "new")] ("h1") = none → w = "old") ∧
      (("es" : String) = stMergeEx.config.targetLocale →
        ∀ u, olookup [("h1", "new")] ("h1") = some u → w = u)) := by
  refine ⟨rfl, by decide, by decide, by decide, ?_⟩
  exact cacheMergeAdditive.1 stMergeEx [itemHello] [("h1", "new")] ("es") ("h1") ("old")
    rfl (by decide) (by decide) (by decide)

theorem init_of_initialized (st : ServiceState) (env : InitEnv)
    (h : st.isInitialized = true) : init st env = (st, 0) := by
  unfold init
  rw [if_pos h]

theorem init_ssr_shape (st : ServiceState) (env : InitEnv)
    (h0 : st.isInitialized = false) (h1 : st.isSSR = true) :
    init st env
      = match loadExistingTranslations st env.net env.now with
        | ⟨.error _, n⟩ => ({ st with isInitialized := true }, n)
        | ⟨.ok st1, n⟩ => ({ st1 with isInitialized := true }, n) := by
  simp only [init]
  rw [if_neg (by simp [h0]), if_pos h1]

theorem init_client_getItemThrows (st : ServiceState) (env : InitEnv)
    (h0 : st.isInitialized = false) (h1 : st.isSSR = false)
    (h2 : env.getItemThrows = true) :
    init st env = ({ st with storage := true, isInitialized := true }, 0) := by
  simp only [init]
  rw [if_neg (by simp [h0]), if_neg (by simp [h1]), if_pos h2]

theorem init_client_shape (st : ServiceState) (env : InitEnv)
    (h0 : st.isInitialized = false) (h1 : st.isSSR = false)
    (h2 : env.getItemThrows = false) :
    init st env
      = match loadExistingTranslations
            { hydrateFromStorage { st with storage := true } env.localData with
              isInitialized := true } env.net env.now with
        | ⟨.error _, n⟩ =>
            ({ hydrateFromStorage { st with storage := true } env.localData with
                isInitialized := true }, n)
        | ⟨.ok st3, n⟩ => (st3, n) := by
  simp only [init]
  rw [if_neg (by simp [h0]), if_neg (by simp [h1]), if_neg (by simp [h2])]

/-- C7: `init` never throws (it is total), is idempotent — a call on an
already-initialized engine returns immediately with no effect — and on a
network failure the error is swallowed: the engine still ends with
`isInitialized = true` (in every case, including storage failures), and
the cache contents loaded before the failure (the synchronous
local-storage hydration in client mode, the pre-existing cache in server
mode) are kept verbatim. -/
theorem initSwallowsFailures (st : ServiceState) (env : InitEnv) :
    (init st env).1.isInitialized = true ∧
    (st.isInitialized = true → init st env = (st, 0)) ∧
    (st.isInitialized = false → st.isSSR = true →
      (env.net = ApiOutcome.reject ∨ env.net = ApiOutcome.httpError) →
      (init st env).1 = { st with isInitialized := true }) ∧
    (st.isInitialized = false → st.isSSR = false → env.getItemThrows = false →
      (env.net = ApiOutcome.reject ∨ env.net = ApiOutcome.httpError) →
      (init st env).1
        = { hydrateFromStorage { st with storage := true } env.localData with
            isInitialized := true }) := by
  refine ⟨?_, ?_, ?_, ?_⟩
  · cases hI : st.isInitialized with
    | true =>
      rw [init_of_initialized st env hI]
      exact hI
    | false =>
      cases hS : st.isSSR with
      | true =>
        rw [init_ssr_shape st env hI hS]
        cases env.net <;> simp [loadExistingTranslations, baseApi]
      | false =>
        cases hG : env.getItemThrows with
        | true => rw [init_client_getItemThrows st env hI hS hG]
        | false =>
          rw [init_client_shape st env hI hS hG]
          cases env.net <;> simp [loadExistingTranslations, baseApi]
  · intro h
    exact init_of_initialized st env h
  · intro h0 h1 hfail
    rw [init_ssr_shape st env h0 h1]
    rcases hfail with h | h <;> rw [h] <;> rfl
  · intro h0 h1 h2 hfail
    rw [init_client_shape st env h0 h1 h2]
    rcases hfail with h | h <;> rw [h] <;> rfl

theorem initSwallowsFailuresWitness :
    (init stFresh envReject).1.isInitialized = true ∧
    stFresh.isInitialized = false ∧ stFresh.isSSR = false ∧
    envReject.getItemThrows = false ∧ envReject.net = ApiOutcome.reject ∧
    (init stFresh envReject).1
      = { hydrateFromStorage { stFresh with storage := true } envReject.localData with
          isInitialized := true } ∧
    stEs.isInitialized = true ∧ init stEs envReject = (stEs, 0) := by
  have h1 := initSwallowsFailures stFresh envReject
  have h2 := initSwallowsFailures stEs envReject
  exact ⟨h1.1, rfl, rfl, rfl, rfl, h1.2.2.2 rfl rfl rfl (Or.inl rfl), rfl, h2.2.1 rfl⟩

theorem mem_saddAll_left (pend xs : List String) (t : String) (h : t ∈ pend) :
    t ∈ saddAll pend xs := by
  induction xs generalizing pend with
  | nil => exact h
  | cons x rest ih =>
    show t ∈ saddAll (if x ∈ pend then pend else pend ++ [x]) rest
    by_cases hx : x ∈ pend
    · rw [if_pos hx]
      exact ih pend h
    · rw [if_neg hx]
      exact ih (pend ++ [x]) (List.mem_append_left _ h)

theorem mem_saddAll_right (pend xs : List String) (t : String) (h : t ∈ xs) :
    t ∈ saddAll pend xs := by
  induction xs generalizing pend with
  | nil => exact absurd h (List.not_mem_nil t)
  | cons x rest ih =>
    show t ∈ saddAll (if x ∈ pend then pend else pend ++ [x]) rest
    rcases List.mem_cons.mp h with h1 | h2
    · subst h1
      by_cases hx : t ∈ pend
      · rw [if_pos hx]
        exact mem_saddAll_left pend rest t hx
      · rw [if_neg hx]
        exact mem_saddAll_left (pend ++ [t]) rest t
          (List.mem_append_right _ (List.mem_singleton.mpr rfl))
    · by_cases hx : x ∈ pend
      · rw [if_pos hx]
        exact ih pend h2
      · rw [if_neg hx]
        exact ih (pend ++ [x]) h2

theorem arrive_service (cfg : TranslationConfig) (texts : List String)
    (s : ServerState) (env : InitEnv) (svc : ServiceState)
    (h : s.service = some svc) :
    (batchTranslateArrive cfg texts s env).2.service = some svc := by
  by_cases hcfg : cfg.sourceLocale = cfg.targetLocale
  · simp [batchTranslateArrive, hcfg, h]
  · simp only [batchTranslateArrive, getService, h, if_neg hcfg]
    split
    · exact h
    · split <;> rfl

theorem arrive_pending_some (cfg : TranslationConfig) (texts : List String)
    (s : ServerState) (env : InitEnv) (u0 : List String)
    (h : s.pendingTexts = some u0) :
    ∃ u1, (batchTranslateArrive cfg texts s env).2.pendingTexts = some u1 ∧
      ∀ t ∈ u0, t ∈ u1 := by
  by_cases hcfg : cfg.sourceLocale = cfg.targetLocale
  · exact ⟨u0, by simp [batchTranslateArrive, hcfg, h], fun t ht => ht⟩
  · simp only [batchTranslateArrive, getService, if_neg hcfg]
    cases hs : s.service with
    | some svc =>
      simp only []
      split
      · exact ⟨u0, h, fun t ht => ht⟩
      · rw [h]
        exact ⟨saddAll u0 (texts.filter (fun t => (getCachedTranslation svc t).isNone)),
          rfl, fun t ht => mem_saddAll_left _ _ t ht⟩
    | none =>
      simp only []
      split
      · exact ⟨u0, h, fun t ht => ht⟩
      · rw [h]
        exact ⟨saddAll u0 (texts.filter
            (fun t => (getCachedTranslation (init (freshService cfg) env).1 t).isNone)),
          rfl, fun t ht => mem_saddAll_left _ _ t ht⟩

theorem arrive_waiting_added (cfg : TranslationConfig) (texts : List String)
    (s : ServerState) (env : InitEnv) (res : Rec) (toT : List String)
    (h : (batchTranslateArrive cfg texts s env).1 = ArriveOut.waiting res toT) :
    ∃ u1, (batchTranslateArrive cfg texts s env).2.pendingTexts = some u1 ∧
      ∀ t ∈ toT, t ∈ u1 := by
  by_cases hcfg : cfg.sourceLocale = cfg.targetLocale
  · rw [show batchTranslateArrive cfg texts s env
        = (.immediate (identityStrRec texts), s) by simp [batchTranslateArrive, hcfg]] at h
    exact absurd h (by simp)
  · revert h
    simp only [batchTranslateArrive, getService, if_neg hcfg]
    cases hs : s.service with
    | some svc =>
      simp only []
      split
      · intro h
        exact absurd h (by simp)
      · split
        · intro h
          simp only [ArriveOut.waiting.injEq] at h
          refine ⟨_, rfl, fun t ht => mem_saddAll_right _ _ t ?_⟩
          rw [h.2]
          exact ht
        · intro h
          simp only [ArriveOut.waiting.injEq] at h
          refine ⟨_, rfl, fun t ht => mem_saddAll_right _ _ t ?_⟩
          rw [h.2]
          exact ht
    | none =>
      simp only []
      split
      · intro h
        exact absurd h (by simp)
      · split
        · intro h
          simp only [ArriveOut.waiting.injEq] at h
          refine ⟨_, rfl, fun t ht => mem_saddAll_right _ _ t ?_⟩
          rw [h.2]
          exact ht
        · intro h
          simp only [ArriveOut.waiting.injEq] at h
          refine ⟨_, rfl, fun t ht => mem_saddAll_right _ _ t ?_⟩
          rw [h.2]
          exact ht

theorem arriveAll_service (cfg : TranslationConfig) (arrivals : List (List String))
    (s : ServerState) (env : InitEnv) (svc : ServiceState)
    (h : s.service = some svc) :
    (arriveAll cfg arrivals s env).2.service = some svc := by
  induction arrivals generalizing s with
  | nil => exact h
  | cons a rest ih =>
    exact ih (batchTranslateArrive cfg a s env).2 (arrive_service cfg a s env svc h)

theorem arriveAll_pending_mono (cfg : TranslationConfig) (arrivals : List (List String))
    (s : ServerState) (env : InitEnv) (u0 : List String)
    (h : s.pendingTexts = some u0) :
    ∃ u1, (arriveAll cfg arrivals s env).2.pendingTexts = some u1 ∧
      ∀ t ∈ u0, t ∈ u1 := by
  induction arrivals generalizing s u0 with
  | nil => exact ⟨u0, h, fun t ht => ht⟩
  | cons a rest ih =>
    obtain ⟨ua, hua, hmema⟩ := arrive_pending_some cfg a s env u0 h
    obtain ⟨u1, hu1, hmem1⟩ := ih (batchTranslateArrive cfg a s env).2 ua hua
    exact ⟨u1, hu1, fun t ht => hmem1 t (hmema t ht)⟩

theorem arriveAll_added (cfg : TranslationConfig) (arrivals : List (List String))
    (s : ServerState) (env : InitEnv) (u : List String)
    (hu : (arriveAll cfg arrivals s env).2.pendingTexts = some u) :
    ∀ out ∈ (arriveAll cfg arrivals s env).1, ∀ res toT,
      out = ArriveOut.waiting res toT → ∀ t ∈ toT, t ∈ u := by
  induction arrivals generalizing s with
  | nil => intro out hout; exact absurd hout (List.not_mem_nil out)
  | cons a rest ih =>
    intro out hout res toT hw t ht
    have hsplit : (arriveAll cfg (a :: rest) s env).1
        = (batchTranslateArrive cfg a s env).1
          :: (arriveAll cfg rest (batchTranslateArrive cfg a s env).2 env).1 := rfl
    have hstate : (arriveAll cfg (a :: rest) s env).2
        = (arriveAll cfg rest (batchTranslateArrive cfg a s env).2 env).2 := rfl
    rw [hstate] at hu
    rw [hsplit] at hout
    rcases List.mem_cons.mp hout with h1 | h2
    · subst h1
      obtain ⟨ua, hua, hmema⟩ := arrive_waiting_added cfg a s env res toT hw
      obtain ⟨u1, hu1, hmem1⟩ :=
        arriveAll_pending_mono cfg rest (batchTranslateArrive cfg a s env).2 env ua hua
      rw [hu] at hu1
      cases hu1
      exact hmem1 t (hmema t ht)
    · exact ih (batchTranslateArrive cfg a s env).2 hu out h2 res toT hw t ht

theorem translateBatch_calls (svc : ServiceState) (texts : List BatchItem)
    (net : ApiOutcome) (hinit : svc.isInitialized = true) (htex : texts ≠ [])
    (hvalid : texts.filter (fun i => !jsBlank i.text) ≠ []) :
    (translateBatch svc texts net).calls = [texts.filter (fun i => !jsBlank i.text)] := by
  have hc : ¬ (svc.isInitialized = false ∨ texts = []) := by
    simp [hinit, htex]
  simp only [translateBatch]
  rw [if_neg hc, if_neg hvalid]
  cases net <;> rfl

theorem executeBatch_calls (texts : List String) (svc : ServiceState) (net : ApiOutcome) :
    (executeBatch texts svc net).2.2
      = (translateBatch svc (texts.map (fun t => BatchItem.mk (generateHash t) t true)) net).calls := by
  unfold executeBatch
  rcases h : translateBatch svc (texts.map (fun t => BatchItem.mk (generateHash t) t true)) net
    with ⟨res, svc1, calls⟩
  cases res <;> rfl

theorem fire_shape (s : ServerState) (net : ApiOutcome) (u : List String)
    (svc : ServiceState) (hp : s.pendingTexts = some u) (hs : s.service = some svc) :
    batchTranslateFire s net
      = ((executeBatch u svc net).1,
         ⟨some (executeBatch u svc net).2.1, none⟩,
         (executeBatch u svc net).2.2) := by
  unfold batchTranslateFire
  rw [hp, hs]

/-- C4 counterexample: a request set whose only text is the whitespace
string `" "` adds that text to the pending-batch descriptor, yet the fire
step makes zero network calls (blank texts are filtered out by
`translateBatch` before the fetch), refuting "exactly one outbound batch
network call ... covering the union of all texts added". -/
theorem serverCoalescingCounterexample :
    (arriveAll cfgFr [[" "]] srvFr envOk).2.pendingTexts = some [" "] ∧
    (batchTranslateFire (arriveAll cfgFr [[" "]] srvFr envOk).2 ApiOutcome.httpError).2.2
      = [] := by
  exact ⟨rfl, rfl⟩

/-- C4 (amended): for every set of requests for the same composite key
arriving before the coalescing delay elapses, every text a requester hands
to the pending-batch descriptor ends up in the descriptor's final text
set, and — provided at least one descriptor text is non-blank — the fire
step makes exactly one outbound batch network call whose payload covers
every non-blank descriptor text.  (Whitespace-only texts are filtered out
of the call, and if every added text is blank no call is made at all: see
the counterexample.) -/
theorem serverCoalescing (cfg : TranslationConfig) (arrivals : List (List String))
    (s0 : ServerState) (env : InitEnv) (net : ApiOutcome) (svc : ServiceState)
    (u : List String)
    (hsvc : s0.service = some svc) (hinit : svc.isInitialized = true)
    (hu : (arriveAll cfg arrivals s0 env).2.pendingTexts = some u)
    (hnb : ∃ t ∈ u, jsBlank t = false) :
    (∀ out ∈ (arriveAll cfg arrivals s0 env).1, ∀ res toT,
      out = ArriveOut.waiting res toT → ∀ t ∈ toT, t ∈ u) ∧
    ∃ payload, (batchTranslateFire (arriveAll cfg arrivals s0 env).2 net).2.2 = [payload] ∧
      ∀ t ∈ u, jsBlank t = false → ∃ it ∈ payload, it.text = t := by
  constructor
  · exact arriveAll_added cfg arrivals s0 env u hu
  · obtain ⟨t0, ht0u, ht0b⟩ := hnb
    have hsvc1 : (arriveAll cfg arrivals s0 env).2.service = some svc :=
      arriveAll_service cfg arrivals s0 env svc hsvc
    have hfire := fire_shape (arriveAll cfg arrivals s0 env).2 net u svc hu hsvc1
    have hreq : (u.map (fun t => BatchItem.mk (generateHash t) t true)) ≠ [] := by
      intro hmap
      rw [List.map_eq_nil_iff] at hmap
      rw [hmap] at ht0u
      exact absurd ht0u (List.not_mem_nil t0)
    have hitem : BatchItem.mk (generateHash t0) t0 true
        ∈ (u.map (fun t => BatchItem.mk (generateHash t) t true)).filter
            (fun i => !jsBlank i.text) := by
      rw [List.mem_filter]
      exact ⟨List.mem_map_of_mem _ ht0u, by simp [ht0b]⟩
    have hvalid : (u.map (fun t => BatchItem.mk (generateHash t) t true)).filter
        (fun i => !jsBlank i.text) ≠ [] := List.ne_nil_of_mem hitem
    refine ⟨(u.map (fun t => BatchItem.mk (generateHash t) t true)).filter
      (fun i => !jsBlank i.text), ?_, ?_⟩
    · rw [hfire]
      rw [executeBatch_calls]
      exact translateBatch_calls svc _ net hinit hreq hvalid
    · intro t htu htb
      refine ⟨BatchItem.mk (generateHash t) t true, ?_, rfl⟩
      rw [List.mem_filter]
      exact ⟨List.mem_map_of_mem _ htu, by simp [htb]⟩

theorem serverCoalescingWitness :
    srvFr.service = some svcFr ∧ svcFr.isInitialized = true ∧
    (arriveAll cfgFr [["A"], ["B"]] srvFr envOk).2.pendingTexts = some ["A", "B"] ∧
    (∃ t ∈ ["A", "B"], jsBlank t = false) ∧
    (∃ payload,
      (batchTranslateFire (arriveAll cfgFr [["A"], ["B"]] srvFr envOk).2
          ApiOutcome.httpError).2.2 = [payload] ∧
      ∀ t ∈ ["A", "B"], jsBlank t = false → ∃ it ∈ payload, it.text = t) := by
  refine ⟨rfl, rfl, rfl, ⟨"A", by decide, by decide⟩, ?_⟩
  exact (serverCoalescing cfgFr [["A"], ["B"]] srvFr envOk ApiOutcome.httpError svcFr
    ["A", "B"] rfl rfl rfl ⟨"A", by decide, by decide⟩).2

/-- C1 counterexample: with the pass-through configuration
`sourceLocale = targetLocale = "en"`, `TranslationService.translateBatch`
still issues its network call (one fetch with the full valid payload),
refuting "every translate-family entry point ... issues zero network
calls". -/
theorem passThroughCounterexample :
    stEn.config.sourceLocale = stEn.config.targetLocale ∧
    (translateBatch stEn [itemHello] (ApiOutcome.success [])).calls = [[itemHello]] :=
  ⟨rfl, rfl⟩

/-- C1 (amended): when `sourceLocale = targetLocale`, the server front
end `ServerTranslationCache.batchTranslate` returns its input texts
mapped to themselves and leaves the registry state untouched (zero
network calls — it returns before even `getService`); but
`TranslationService.translate` and `TranslationService.translateBatch`
apply no such check: `translate` still enqueues an uncached non-blank
text and arms the debounced batch, and `translateBatch` still performs
its one network call with the valid payload. -/
theorem passThroughAmended :
    (∀ (cfg : TranslationConfig) (texts : List String) (s : ServerState) (env : InitEnv),
      cfg.sourceLocale = cfg.targetLocale →
      batchTranslateArrive cfg texts s env = (.immediate (identityStrRec texts), s) ∧
      ∀ t ∈ texts, olookup (identityStrRec texts) t = some t) ∧
    (∀ (st : ServiceState) (texts : List BatchItem) (net : ApiOutcome),
      st.config.sourceLocale = st.config.targetLocale →
      st.isInitialized = true → texts ≠ [] →
      texts.filter (fun i => !jsBlank i.text) ≠ [] →
      (translateBatch st texts net).calls = [texts.filter (fun i => !jsBlank i.text)]) ∧
    (∀ (st : ServiceState) (text : String) (persist : Bool),
      st.config.sourceLocale = st.config.targetLocale →
      st.isInitialized = true → jsBlank text = false →
      getCachedTranslation st text = none →
      st.isSSR = false → st.storage = true →
      (translate st text persist).1 = text ∧
      olookup (translate st text persist).2.pendingTranslations text = some persist ∧
      (translate st text persist).2.batchTimeout = true) := by
  refine ⟨?_, ?_, ?_⟩
  · intro cfg texts s env heq
    constructor
    · unfold batchTranslateArrive
      rw [if_pos heq]
    · intro t ht
      exact identityStrRec_lookup texts t ht
  · intro st texts net _ hinit htex hvalid
    exact translateBatch_calls st texts net hinit htex hvalid
  · intro st text persist _ hinit hnb hmiss hssr hsto
    have hstep := translate_miss_shape st text persist hinit hnb hmiss
    refine ⟨by rw [hstep], ?_, ?_⟩
    · rw [hstep]
      show olookup (scheduleBatchTranslation _).pendingTranslations text = some persist
      rw [scheduleBatch_pendingEq, olookup_oset, if_pos rfl]
    · rw [hstep]
      exact scheduleBatch_arms _ hssr hsto

theorem passThroughAmendedWitness :
    cfgEn.sourceLocale = cfgEn.targetLocale ∧
    batchTranslateArrive cfgEn [("Hi")] ⟨none, none⟩ envOk
      = (.immediate (identityStrRec [("Hi")]), ⟨none, none⟩) ∧
    stEn.config.sourceLocale = stEn.config.targetLocale ∧ stEn.isInitialized = true ∧
    (translateBatch stEn [itemHello] (ApiOutcome.success [])).calls
      = [[itemHello].filter (fun i => !jsBlank i.text)] ∧
    (translate stEn ("Hi") true).1 = "Hi" ∧
    (translate stEn ("Hi") true).2.batchTimeout = true := by
  have h1 := (passThroughAmended.1 cfgEn [("Hi")] ⟨none, none⟩ envOk rfl).1
  have h2 := passThroughAmended.2.1 stEn [itemHello] (ApiOutcome.success []) rfl rfl
    (by decide) (by decide)
  have h3 := passThroughAmended.2.2 stEn ("Hi") true rfl rfl (by decide) rfl rfl rfl
  exact ⟨rfl, h1, rfl, rfl, h2, h3.1, h3.2.2⟩

theorem digitChar_isDigit (d : Nat) (h : d < 10) : (Nat.digitChar d).isDigit = true := by
  interval_cases d <;> decide

theorem digitChar_val (d : Nat) (h : d < 10) : (Nat.digitChar d).toNat - 48 = d := by
  interval_cases d <;> decide

theorem natCharsCore_succ (f n : Nat) (acc : List Char) :
    natCharsCore (f + 1) n acc
      = if n < 10 then Nat.digitChar n :: acc
        else natCharsCore f (n / 10) (Nat.digitChar (n % 10) :: acc) := rfl

theorem natCharsCore_acc (fuel : Nat) :
    ∀ n acc, n < fuel →
      natCharsCore fuel n acc = natCharsCore fuel n [] ++ acc := by
  induction fuel with
  | zero => intro n acc h; omega
  | succ f ih =>
    intro n acc h
    by_cases h10 : n < 10
    · rw [natCharsCore_succ, if_pos h10, natCharsCore_succ, if_pos h10]
      rfl
    · have hdiv : n / 10 < n := Nat.div_lt_self (by omega) (by omega)
      have hf : n / 10 < f := by omega
      rw [natCharsCore_succ, if_neg h10, natCharsCore_succ, if_neg h10,
        ih (n / 10) (Nat.digitChar (n % 10) :: acc) hf,
        ih (n / 10) (Nat.digitChar (n % 10) :: []) hf]
      simp

theorem natCharsCore_shape (f n : Nat) (h10 : ¬ n < 10) (hf : n / 10 < f) :
    natCharsCore (f + 1) n []
      = natCharsCore f (n / 10) [] ++ [Nat.digitChar (n % 10)] := by
  rw [natCharsCore_succ, if_neg h10]
  exact natCharsCore_acc f (n / 10) _ hf

theorem natCharsCore_digits (fuel : Nat) :
    ∀ n, n < fuel → ∀ c ∈ natCharsCore fuel n [], c.isDigit = true := by
  induction fuel with
  | zero => intro n h; omega
  | succ f ih =>
    intro n h c hc
    by_cases h10 : n < 10
    · rw [natCharsCore_succ, if_pos h10] at hc
      rw [List.mem_singleton.mp hc]
      exact digitChar_isDigit n h10
    · have hdiv : n / 10 < n := Nat.div_lt_self (by omega) (by omega)
      have hf : n / 10 < f := by omega
      rw [natCharsCore_shape f n h10 hf] at hc
      rcases List.mem_append.mp hc with h1 | h2
      · exact ih (n / 10) hf c h1
      · rw [List.mem_singleton.mp h2]
        exact digitChar_isDigit (n % 10) (Nat.mod_lt n (by omega))

theorem natCharsCore_ne_nil (fuel n : Nat) (h : n < fuel) :
    natCharsCore fuel n [] ≠ [] := by
  cases fuel with
  | zero => omega
  | succ f =>
    by_cases h10 : n < 10
    · rw [natCharsCore_succ, if_pos h10]
      simp
    · have hdiv : n / 10 < n := Nat.div_lt_self (by omega) (by omega)
      have hf : n / 10 < f := by omega
      rw [natCharsCore_shape f n h10 hf]
      simp

theorem digitsVal_append_singleton (xs : List Char) (c : Char) :
    digitsVal (xs ++ [c]) = 10 * digitsVal xs + (c.toNat - 48) := by
  unfold digitsVal
  rw [List.foldl_append]
  rfl

theorem natCharsCore_val (fuel : Nat) :
    ∀ n, n < fuel → digitsVal (natCharsCore fuel n []) = n := by
  induction fuel with
  | zero => intro n h; omega
  | succ f ih =>
    intro n h
    by_cases h10 : n < 10
    · rw [natCharsCore_succ, if_pos h10]
      show 10 * 0 + ((Nat.digitChar n).toNat - 48) = n
      rw [digitChar_val n h10]
      omega
    · have hdiv : n / 10 < n := Nat.div_lt_self (by omega) (by omega)
      have hf : n / 10 < f := by omega
      rw [natCharsCore_shape f n h10 hf, digitsVal_append_singleton, ih (n / 10) hf,
        digitChar_val (n % 10) (Nat.mod_lt n (by omega))]
      omega

theorem natChars_digits (n : Nat) : ∀ c ∈ natChars n, c.isDigit = true :=
  natCharsCore_digits (n + 1) n (Nat.lt_succ_self n)

theorem natChars_ne_nil (n : Nat) : natChars n ≠ [] :=
  natCharsCore_ne_nil (n + 1) n (Nat.lt_succ_self n)

theorem natChars_val (n : Nat) : digitsVal (natChars n) = n :=
  natCharsCore_val (n + 1) n (Nat.lt_succ_self n)

theorem isDigit_ne_special (c : Char) (h : c.isDigit = true) :
    c ≠ '<' ∧ c ≠ '>' ∧ c ≠ '/' := by
  refine ⟨?_, ?_, ?_⟩ <;> intro he <;> rw [he] at h <;> exact absurd h (by decide)

theorem takeWhile_append_all (p : Char → Bool) (xs ys : List Char)
    (h : ∀ x ∈ xs, p x = true) :
    (xs ++ ys).takeWhile p = xs ++ ys.takeWhile p := by
  induction xs with
  | nil => rfl
  | cons x rest ih =>
    rw [List.cons_append, List.takeWhile_cons_of_pos (h x (List.mem_cons_self x rest)),
      ih (fun a ha => h a (List.mem_cons_of_mem x ha)), List.cons_append]

theorem dropWhile_append_all (p : Char → Bool) (xs ys : List Char)
    (h : ∀ x ∈ xs, p x = true) :
    (xs ++ ys).dropWhile p = ys.dropWhile p := by
  induction xs with
  | nil => rfl
  | cons x rest ih =>
    rw [List.cons_append, List.dropWhile_cons_of_pos (h x (List.mem_cons_self x rest))]
    exact ih (fun a ha => h a (List.mem_cons_of_mem x ha))

theorem cmarker_cons (k : Nat) (c rest : List Char) :
    cmarker k c ++ rest
      = '<' :: (natChars k ++ ('>' :: (c ++ ('<' :: ('/' :: (natChars k ++ ('>' :: rest))))))) := by
  simp [cmarker]

theorem cmarker_length_pos (k : Nat) (c : List Char) : 0 < (cmarker k c).length := by
  simp [cmarker]

theorem tryMatchAt_not_lt (x : Char) (xs : List Char) (h : ¬ x = '<') :
    tryMatchAt (x :: xs) = none := by
  simp only [tryMatchAt]
  rw [if_neg h]

theorem matchCapture_not_lt (x : Char) (xs : List Char) (h : ¬ x = '<') :
    matchCapture (x :: xs) = none := by
  simp only [matchCapture]
  rw [if_neg h]

theorem matchMarker_none (p : List Char) (hp : ∀ x ∈ p, ¬ x = '<') :
    matchMarker p = none := by
  induction p with
  | nil => rfl
  | cons x xs ih =>
    simp only [matchMarker]
    rw [matchCapture_not_lt x xs (hp x (List.mem_cons_self x xs))]
    exact ih (fun a ha => hp a (List.mem_cons_of_mem x ha))

theorem tryMatchAt_cmarker (k : Nat) (c rest : List Char)
    (hc : ∀ x ∈ c, ¬ x = '<') :
    tryMatchAt (cmarker k c ++ rest) = some (cmarker k c, rest) := by
  have hdig : ∀ x ∈ natChars k, Char.isDigit x = true := natChars_digits k
  have hcb : ∀ x ∈ c, (fun ch => decide (ch ≠ '<')) x = true := by
    intro x hx
    simpa using hc x hx
  have h1 : (natChars k ++ ('>' :: (c ++ ('<' :: ('/' :: (natChars k ++ ('>' :: rest))))))).takeWhile Char.isDigit
      = natChars k := by
    rw [takeWhile_append_all Char.isDigit _ _ hdig, List.takeWhile_cons_of_neg (by decide)]
    simp
  have h2 : (natChars k ++ ('>' :: (c ++ ('<' :: ('/' :: (natChars k ++ ('>' :: rest))))))).dropWhile Char.isDigit
      = '>' :: (c ++ ('<' :: ('/' :: (natChars k ++ ('>' :: rest))))) := by
    rw [dropWhile_append_all Char.isDigit _ _ hdig, List.dropWhile_cons_of_neg (by decide)]
  have h3 : (c ++ ('<' :: ('/' :: (natChars k ++ ('>' :: rest))))).takeWhile (fun ch => ch ≠ '<')
      = c := by
    rw [takeWhile_append_all _ _ _ hcb, List.takeWhile_cons_of_neg (by decide)]
    simp
  have h4 : (c ++ ('<' :: ('/' :: (natChars k ++ ('>' :: rest))))).dropWhile (fun ch => ch ≠ '<')
      = '<' :: ('/' :: (natChars k ++ ('>' :: rest))) := by
    rw [dropWhile_append_all _ _ _ hcb, List.dropWhile_cons_of_neg (by decide)]
  have h5 : (natChars k ++ ('>' :: rest)).takeWhile Char.isDigit = natChars k := by
    rw [takeWhile_append_all Char.isDigit _ _ hdig, List.takeWhile_cons_of_neg (by decide)]
    simp
  have h6 : (natChars k ++ ('>' :: rest)).dropWhile Char.isDigit = '>' :: rest := by
    rw [dropWhile_append_all Char.isDigit _ _ hdig, List.dropWhile_cons_of_neg (by decide)]
  rw [cmarker_cons]
  simp only [tryMatchAt, h1, h2, h3, h4, h5, h6, if_pos rfl]
  rw [if_neg (natChars_ne_nil k), if_neg (natChars_ne_nil k)]
  simp [cmarker]

theorem matchCapture_cmarker (k : Nat) (c : List Char) (hc : ∀ x ∈ c, ¬ x = '<') :
    matchCapture (cmarker k c) = some (natChars k, c) := by
  have hdig : ∀ x ∈ natChars k, Char.isDigit x = true := natChars_digits k
  have hcb : ∀ x ∈ c, (fun ch => decide (ch ≠ '<')) x = true := by
    intro x hx
    simpa using hc x hx
  have hnil : cmarker k c
      = '<' :: (natChars k ++ ('>' :: (c ++ ('<' :: ('/' :: (natChars k ++ ('>' :: ([] : List Char)))))))) := by
    have := cmarker_cons k c []
    simpa using this
  have h1 : (natChars k ++ ('>' :: (c ++ ('<' :: ('/' :: (natChars k ++ ('>' :: ([] : List Char)))))))).takeWhile Char.isDigit
      = natChars k := by
    rw [takeWhile_append_all Char.isDigit _ _ hdig, List.takeWhile_cons_of_neg (by decide)]
    simp
  have h2 : (natChars k ++ ('>' :: (c ++ ('<' :: ('/' :: (natChars k ++ ('>' :: ([] : List Char)))))))).dropWhile Char.isDigit
      = '>' :: (c ++ ('<' :: ('/' :: (natChars k ++ ('>' :: ([] : List Char)))))) := by
    rw [dropWhile_append_all Char.isDigit _ _ hdig, List.dropWhile_cons_of_neg (by decide)]
  have h3 : (c ++ ('<' :: ('/' :: (natChars k ++ ('>' :: ([] : List Char)))))).takeWhile (fun ch => ch ≠ '<')
      = c := by
    rw [takeWhile_append_all _ _ _ hcb, List.takeWhile_cons_of_neg (by decide)]
    simp
  have h4 : (c ++ ('<' :: ('/' :: (natChars k ++ ('>' :: ([] : List Char)))))).dropWhile (fun ch => ch ≠ '<')
      = '<' :: ('/' :: (natChars k ++ ('>' :: ([] : List Char)))) := by
    rw [dropWhile_append_all _ _ _ hcb, List.dropWhile_cons_of_neg (by decide)]
  have h5 : (natChars k ++ ('>' :: ([] : List Char))).takeWhile Char.isDigit = natChars k := by
    rw [takeWhile_append_all Char.isDigit _ _ hdig, List.takeWhile_cons_of_neg (by decide)]
    simp
  have h6 : (natChars k ++ ('>' :: ([] : List Char))).dropWhile Char.isDigit
      = '>' :: ([] : List Char) := by
    rw [dropWhile_append_all Char.isDigit _ _ hdig, List.dropWhile_cons_of_neg (by decide)]
  rw [hnil]
  simp only [matchCapture, h1, h2, h3, h4, h5, h6, if_pos rfl]
  simp [natChars_ne_nil k]

theorem matchMarker_cmarker (k : Nat) (c : List Char) (hc : ∀ x ∈ c, ¬ x = '<') :
    matchMarker (cmarker k c) = some (natChars k, c) := by
  obtain ⟨tl, htl⟩ : ∃ tl, cmarker k c = '<' :: tl :=
    ⟨natChars k ++ ('>' :: (c ++ ('<' :: ('/' :: (natChars k ++ ['>']))))), by simp [cmarker]⟩
  have hcap := matchCapture_cmarker k c hc
  rw [htl] at hcap ⊢
  simp only [matchMarker]
  rw [hcap]

theorem splitAux_nil (fuel : Nat) (acc : List Char) :
    splitAux fuel acc [] = [acc.reverse] := by
  cases fuel <;> rfl

theorem splitAux_plain (p : List Char) :
    ∀ (fuel : Nat) (acc rest : List Char), (∀ x ∈ p, ¬ x = '<') → p.length ≤ fuel →
      splitAux fuel acc (p ++ rest) = splitAux (fuel - p.length) (p.reverse ++ acc) rest := by
  induction p with
  | nil => intro fuel acc rest _ _; simp
  | cons x xs ih =>
    intro fuel acc rest hp hlen
    rw [List.length_cons] at hlen
    cases fuel with
    | zero => omega
    | succ f =>
      rw [List.cons_append]
      simp only [splitAux]
      rw [tryMatchAt_not_lt x (xs ++ rest) (hp x (List.mem_cons_self x xs))]
      rw [ih f (x :: acc) rest (fun a ha => hp a (List.mem_cons_of_mem x ha)) (by omega)]
      simp [List.reverse_cons, List.append_assoc, Nat.succ_sub_succ]

theorem splitAux_marker (k : Nat) (c : List Char) (hc : ∀ x ∈ c, ¬ x = '<')
    (fuel : Nat) (acc rest : List Char) :
    splitAux (fuel + 1) acc (cmarker k c ++ rest)
      = acc.reverse :: cmarker k c :: splitAux fuel [] rest := by
  have hmatch := tryMatchAt_cmarker k c rest hc
  rw [cmarker_cons] at hmatch ⊢
  simp only [splitAux]
  rw [hmatch]

theorem split_ctempl (T : List RNode) :
    ∀ (k fuel : Nat) (acc : List Char), goodTree T = true →
      (ctempl k T).length ≤ fuel →
      splitAux fuel acc (ctempl k T) = partsOf k acc.reverse T := by
  induction T with
  | nil =>
    intro k fuel acc _ _
    show splitAux fuel acc [] = [acc.reverse]
    exact splitAux_nil fuel acc
  | cons n rest ih =>
    intro k fuel acc hg hlen
    have hgn : goodNode n = true ∧ goodTree rest = true := by
      simpa [goodTree, List.all_cons, Bool.and_eq_true] using hg
    cases n with
    | str s =>
      have hs : ∀ x ∈ s.data, ¬ x = '<' := by
        intro x hx
        have h := hgn.1
        simp only [goodNode, List.all_eq_true] at h
        simpa using h x hx
      have hlen2 : s.data.length + (ctempl k rest).length ≤ fuel := by
        have : ctempl k (RNode.str s :: rest) = s.data ++ ctempl k rest := rfl
        rw [this, List.length_append] at hlen
        omega
      show splitAux fuel acc (s.data ++ ctempl k rest) = partsOf k acc.reverse (.str s :: rest)
      rw [splitAux_plain s.data fuel acc (ctempl k rest) hs (by omega)]
      rw [ih k (fuel - s.data.length) (s.data.reverse ++ acc) hgn.2 (by omega)]
      show partsOf k (s.data.reverse ++ acc).reverse rest
          = partsOf k (acc.reverse ++ s.data) rest
      rw [List.reverse_append, List.reverse_reverse]
    | nul =>
      have h := hgn.1
      simp [goodNode] at h
    | elemNone t =>
      have h := hgn.1
      simp [goodNode] at h
    | elemMany t ns =>
      have h := hgn.1
      simp [goodNode] at h
    | elemOne t child =>
      cases child with
      | str s =>
        have hs : ∀ x ∈ s.data, ¬ x = '<' := by
          intro x hx
          have h := hgn.1
          simp only [goodNode, List.all_eq_true] at h
          simpa using h x hx
        have hshape : ctempl k (RNode.elemOne t (RNode.str s) :: rest)
            = cmarker k s.data ++ ctempl (k + 1) rest := rfl
        rw [hshape] at hlen
        rw [List.length_append] at hlen
        have hpos := cmarker_length_pos k s.data
        cases fuel with
        | zero => omega
        | succ f =>
          show splitAux (f + 1) acc (cmarker k s.data ++ ctempl (k + 1) rest)
              = partsOf k acc.reverse (.elemOne t (.str s) :: rest)
          rw [splitAux_marker k s.data hs f acc (ctempl (k + 1) rest)]
          rw [ih (k + 1) f [] hgn.2 (by omega)]
          rfl
      | nul =>
        have h := hgn.1
        simp [goodNode] at h
      | elemNone t2 =>
        have h := hgn.1
        simp [goodNode] at h
      | elemOne t2 c2 =>
        have h := hgn.1
        simp [goodNode] at h
      | elemMany t2 ns2 =>
        have h := hgn.1
        simp [goodNode] at h

theorem markerText_data (i : Nat) (s : String) :
    (markerText i s).data = cmarker i s.data := by
  simp [markerText, cmarker, String.data_append, List.append_assoc]

theorem processList_good (T : List RNode) :
    ∀ acc : ExtractAcc, goodTree T = true →
      (processList acc T).text.data = acc.text.data ++ ctempl acc.styles.length T ∧
      (processList acc T).styles = acc.styles ++ srcStyled T := by
  induction T with
  | nil => intro acc _; simp [processList, ctempl, srcStyled]
  | cons n rest ih =>
    intro acc hg
    have hgn : goodNode n = true ∧ goodTree rest = true := by
      simpa [goodTree, List.all_cons, Bool.and_eq_true] using hg
    cases n with
    | str s =>
      have hstep : processList acc (.str s :: rest)
          = processList { acc with text := acc.text ++ s } rest := rfl
      rw [hstep]
      obtain ⟨ht, hs⟩ := ih { acc with text := acc.text ++ s } hgn.2
      constructor
      · rw [ht]
        show (acc.text ++ s).data ++ ctempl acc.styles.length rest
            = acc.text.data ++ (s.data ++ ctempl acc.styles.length rest)
        rw [String.data_append, List.append_assoc]
      · rw [hs]
        rfl
    | nul =>
      have h := hgn.1
      simp [goodNode] at h
    | elemNone t =>
      have h := hgn.1
      simp [goodNode] at h
    | elemMany t ns =>
      have h := hgn.1
      simp [goodNode] at h
    | elemOne t child =>
      cases child with
      | str s =>
        have hstep : processList acc (.elemOne t (.str s) :: rest)
            = processList ⟨acc.text ++ markerText acc.styles.length s,
                acc.styles ++ [(.elemOne t (.str s), s)]⟩ rest := rfl
        rw [hstep]
        obtain ⟨ht, hsx⟩ :=
          ih ⟨acc.text ++ markerText acc.styles.length s,
              acc.styles ++ [(.elemOne t (.str s), s)]⟩ hgn.2
        constructor
        · rw [ht]
          show (acc.text ++ markerText acc.styles.length s).data
              ++ ctempl (acc.styles ++ [(RNode.elemOne t (RNode.str s), s)]).length rest
              = acc.text.data
                ++ (cmarker acc.styles.length s.data ++ ctempl (acc.styles.length + 1) rest)
          rw [String.data_append, markerText_data, List.length_append, List.append_assoc]
          rfl
        · rw [hsx]
          show acc.styles ++ [(RNode.elemOne t (RNode.str s), s)] ++ srcStyled rest
              = acc.styles ++ ((RNode.elemOne t (RNode.str s), s) :: srcStyled rest)
          rw [List.append_assoc]
          rfl
      | nul =>
        have h := hgn.1
        simp [goodNode] at h
      | elemNone t2 =>
        have h := hgn.1
        simp [goodNode] at h
      | elemOne t2 c2 =>
        have h := hgn.1
        simp [goodNode] at h
      | elemMany t2 ns2 =>
        have h := hgn.1
        simp [goodNode] at h

theorem extract_good (T : List RNode) (hT : goodTree T = true) :
    (extractTextAndStyles T).text.data = ctempl 0 T ∧
    (extractTextAndStyles T).styles = srcStyled T := by
  obtain ⟨h1, h2⟩ := processList_good T ⟨"", []⟩ hT
  constructor
  · rw [extractTextAndStyles, h1]
    rfl
  · rw [extractTextAndStyles, h2]
    rfl

theorem restore_parts (T : List RNode) :
    ∀ (k : Nat) (pre : List Char) (S : List (RNode × String)),
      goodTree T = true → (∀ x ∈ pre, ¬ x = '<') →
      (∀ j, S[k + j]? = (srcStyled T)[j]?) →
      (partsOf k pre T).map (fun l => restorePart S (String.mk l)) = expectedOut pre T := by
  induction T with
  | nil =>
    intro k pre S _ hpre _
    show [restorePart S (String.mk pre)] = [.otext (String.mk pre)]
    have hm : matchMarker (String.mk pre).data = none := matchMarker_none pre hpre
    simp [restorePart, hm]
  | cons n rest ih =>
    intro k pre S hg hpre hS
    have hgn : goodNode n = true ∧ goodTree rest = true := by
      simpa [goodTree, List.all_cons, Bool.and_eq_true] using hg
    cases n with
    | str s =>
      have hs : ∀ x ∈ s.data, ¬ x = '<' := by
        intro x hx
        have h := hgn.1
        simp only [goodNode, List.all_eq_true] at h
        simpa using h x hx
      have hpre2 : ∀ x ∈ pre ++ s.data, ¬ x = '<' := by
        intro x hx
        rcases List.mem_append.mp hx with h | h
        · exact hpre x h
        · exact hs x h
      exact ih k (pre ++ s.data) S hgn.2 hpre2 hS
    | nul =>
      have h := hgn.1
      simp [goodNode] at h
    | elemNone t =>
      have h := hgn.1
      simp [goodNode] at h
    | elemMany t ns =>
      have h := hgn.1
      simp [goodNode] at h
    | elemOne t child =>
      cases child with
      | str s =>
        have hs : ∀ x ∈ s.data, ¬ x = '<' := by
          intro x hx
          have h := hgn.1
          simp only [goodNode, List.all_eq_true] at h
          simpa using h x hx
        have hSk : S[k]? = some (RNode.elemOne t (RNode.str s), s) := by
          simpa [srcStyled] using hS 0
        have e1 : restorePart S (String.mk pre) = .otext (String.mk pre) := by
          have hm : matchMarker (String.mk pre).data = none := matchMarker_none pre hpre
          simp [restorePart, hm]
        have e2 : restorePart S (String.mk (cmarker k s.data))
            = .onode (.elemOne t (.str s)) := by
          unfold restorePart
          rw [show (String.mk (cmarker k s.data)).data = cmarker k s.data from rfl]
          rw [matchMarker_cmarker k s.data hs]
          simp only [natChars_val, hSk]
          rfl
        have hS2 : ∀ j, S[k + 1 + j]? = (srcStyled rest)[j]? := by
          intro j
          have h := hS (j + 1)
          rw [show k + (j + 1) = k + 1 + j by omega] at h
          rw [h]
          rw [show srcStyled (RNode.elemOne t (RNode.str s) :: rest)
              = (RNode.elemOne t (RNode.str s), s) :: srcStyled rest from rfl]
          exact List.getElem?_cons_succ
        have e3 := ih (k + 1) [] S hgn.2 (by intro x hx; cases hx) hS2
        show restorePart S (String.mk pre)
            :: restorePart S (String.mk (cmarker k s.data))
            :: (partsOf (k + 1) [] rest).map (fun l => restorePart S (String.mk l))
            = .otext (String.mk pre) :: .onode (.elemOne t (.str s)) :: expectedOut [] rest
        rw [e1, e2, e3]
      | nul =>
        have h := hgn.1
        simp [goodNode] at h
      | elemNone t2 =>
        have h := hgn.1
        simp [goodNode] at h
      | elemOne t2 c2 =>
        have h := hgn.1
        simp [goodNode] at h
      | elemMany t2 ns2 =>
        have h := hgn.1
        simp [goodNode] at h

theorem outJoin_expected_data (T : List RNode) :
    ∀ pre, (outJoin (expectedOut pre T)).data = pre ++ (srcVisible T).data := by
  induction T with
  | nil =>
    intro pre
    show (String.mk pre ++ "").data = pre ++ ("" : String).data
    rw [String.data_append]
  | cons n rest ih =>
    intro pre
    cases n with
    | str s =>
      show (outJoin (expectedOut (pre ++ s.data) rest)).data
          = pre ++ (s ++ srcVisible rest).data
      rw [ih (pre ++ s.data), String.data_append, List.append_assoc]
    | nul => exact ih pre
    | elemNone t => exact ih pre
    | elemMany t ns => exact ih pre
    | elemOne t child =>
      cases child with
      | str s =>
        show (String.mk pre ++ (s ++ outJoin (expectedOut [] rest))).data
            = pre ++ (s ++ srcVisible rest).data
        rw [String.data_append, String.data_append, String.data_append]
        rw [ih ([] : List Char)]
        simp
      | nul => exact ih pre
      | elemNone t2 => exact ih pre
      | elemOne t2 c2 => exact ih pre
      | elemMany t2 ns2 => exact ih pre

theorem outStyled_expected (T : List RNode) :
    ∀ pre, outStyled (expectedOut pre T)
      = (srcStyled T).map (fun p => cloneElement p.1 p.2) := by
  induction T with
  | nil => intro pre; rfl
  | cons n rest ih =>
    intro pre
    cases n with
    | str s => exact ih (pre ++ s.data)
    | nul => exact ih pre
    | elemNone t => exact ih pre
    | elemMany t ns => exact ih pre
    | elemOne t child =>
      cases child with
      | str s =>
        show RNode.elemOne t (RNode.str s) :: outStyled (expectedOut [] rest)
            = cloneElement (RNode.elemOne t (RNode.str s)) s
              :: (srcStyled rest).map (fun p => cloneElement p.1 p.2)
        rw [ih ([] : List Char)]
        rfl
      | nul => exact ih pre
      | elemNone t2 => exact ih pre
      | elemOne t2 c2 => exact ih pre
      | elemMany t2 ns2 => exact ih pre

/-- C3 counterexample: for the tree `[<span>{"a<b"}</span>]` — a single
styled span whose child string contains `<` — the template is
`<0>a<b</0>`, whose inner `<` defeats the `[^<]*` marker regex, so
`restoreStyledText` returns the raw template as one plain fragment: the
concatenated visible text is `<0>a<b</0>`, not the original `a<b`, and no
styled node is reproduced. -/
theorem roundTripCounterexample :
    outJoin (restoreStyledText (extractTextAndStyles treeBad).text
        (extractTextAndStyles treeBad).styles) ≠ srcVisible treeBad := by
  decide

/-- C3 (amended): for every forest of plain-text fragments and styled
elements whose single child is a plain string, provided none of those
strings contains the character `<`, restoring the untranslated template
reconstructs the canonical interleaving of the plain runs with the cloned
styled nodes: the concatenated visible text equals the visible text of the
source, and the styled nodes appear in extraction order, each cloned from
its original node with its original text (hence at the same relative
position). -/
theorem roundTripAmended (T : List RNode) (hT : goodTree T = true) :
    restoreStyledText (extractTextAndStyles T).text (extractTextAndStyles T).styles
      = expectedOut [] T ∧
    outJoin (restoreStyledText (extractTextAndStyles T).text
        (extractTextAndStyles T).styles) = srcVisible T ∧
    outStyled (restoreStyledText (extractTextAndStyles T).text
        (extractTextAndStyles T).styles)
      = (extractTextAndStyles T).styles.map (fun p => cloneElement p.1 p.2) := by
  obtain ⟨hdata, hstyles⟩ := extract_good T hT
  have hsplit : splitOnMarkers (extractTextAndStyles T).text
      = (partsOf 0 [] T).map String.mk := by
    rw [splitOnMarkers, hdata]
    rw [split_ctempl T 0 ((ctempl 0 T).length + 1) [] hT (Nat.le_succ _)]
    rfl
  have hrest : restoreStyledText (extractTextAndStyles T).text
      (extractTextAndStyles T).styles = expectedOut [] T := by
    rw [restoreStyledText, hsplit, hstyles, List.map_map]
    exact restore_parts T 0 [] (srcStyled T) hT (by intro x hx; cases hx)
      (by intro j; rw [Nat.zero_add])
  refine ⟨hrest, ?_, ?_⟩
  · rw [hrest]
    apply String.ext
    rw [outJoin_expected_data T []]
    rfl
  · rw [hrest, hstyles]
    exact outStyled_expected T []

theorem roundTripAmendedWitness :
    goodTree treeRound = true ∧
    outJoin (restoreStyledText (extractTextAndStyles treeRound).text
        (extractTextAndStyles treeRound).styles) = srcVisible treeRound :=
  ⟨by decide, (roundTripAmended treeRound (by decide)).2.1⟩

/-- C8: `restoreStyledText` is a total function (never throws), and acts
as the fail-open mapper over the split parts: a part whose marker match
has index `i ≥ styles.length` is kept verbatim as a plain-text fragment
(the full literal `<i>...</i>` text), and every non-marker segment —
including empty segments — passes through unchanged; the output has one
entry per split part. -/
theorem restoreFailOpen (t : String) (styles : List (RNode × String)) :
    (restoreStyledText t styles).length = (splitOnMarkers t).length ∧
    ∀ (k : Nat) (part : String), (splitOnMarkers t)[k]? = some part →
      (matchMarker part.data = none →
        (restoreStyledText t styles)[k]? = some (.otext part)) ∧
      (∀ d c, matchMarker part.data = some (d, c) → styles.length ≤ digitsVal d →
        (restoreStyledText t styles)[k]? = some (.otext part)) := by
  constructor
  · exact List.length_map _ _
  · intro k part hk
    have hmap : (restoreStyledText t styles)[k]? = some (restorePart styles part) := by
      rw [restoreStyledText, List.getElem?_map, hk]
      rfl
    constructor
    · intro hnone
      rw [hmap]
      unfold restorePart
      rw [hnone]
    · intro d c hm hlen
      rw [hmap]
      unfold restorePart
      rw [hm]
      show some (match styles[digitsVal d]? with
        | some style => OutPart.onode (cloneElement style.1 (String.mk c))
        | none => OutPart.otext part) = some (OutPart.otext part)
      rw [List.getElem?_eq_none hlen]

theorem restoreFailOpenWitness :
    (splitOnMarkers ("Hello <0>text</0> and <2>missing</2>"))[3]?
        = some ("<2>missing</2>") ∧
    matchMarker ("<2>missing</2>").data = some (['2'], ("missing").data) ∧
    ([(styleSpan, "text")] : List (RNode × String)).length ≤ digitsVal ['2'] ∧
    (restoreStyledText ("Hello <0>text</0> and <2>missing</2>") [(styleSpan, "text")])[3]?
        = some (.otext ("<2>missing</2>")) := by
  refine ⟨by decide, by decide, by decide, ?_⟩
  exact ((restoreFailOpen ("Hello <0>text</0> and <2>missing</2>")
      [(styleSpan, "text")]).2 3 ("<2>missing</2>") (by decide)).2
    ['2'] (("missing").data) (by decide) (by decide)
